import Mathlib

/-!
Verification of the PPO training core in `ppo_op.py` (job-shop scheduling
PPO with priority-weighted replay).  The definitions below are a shallow
embedding of the source: numeric values are modelled as rationals (exact
arithmetic) except where a claim is about real-valued continuity or the
fractional power `** 0.6`, which are modelled over the reals.  Neural
networks and the optimizer are treated as abstract functions, as the spec
itself declares them an externally provided differentiable capability.
-/

namespace PPOOp

/-- Discount factor `self.gamma = 0.999` (`ppo_op.py` line 57). -/
def gammaConst : ℚ := 999 / 1000

/-- Clip range `self.epsilon = clip_ep = 0.2` (`ppo_op.py` lines 52, 237). -/
def epsilonConst : ℚ := 1 / 5

/-- Number of update passes `self.UPDATE_STEPS = 10` (`ppo_op.py` line 60). -/
def UPDATE_STEPS : ℕ := 10

/-- `self.convergence_episode = 2000` (`ppo_op.py` line 73). -/
def convergence_episode : ℕ := 2000

/-- `self.init_size = 1` (`ppo_op.py` line 75). -/
def init_size : ℕ := 1

/-! ### Rollout collector: discounted returns (`ppo_op.py` lines 192-198)

The code iterates `for r in buffer_r[::-1]: v_s_ = r + gamma * v_s_;
discounted_r.append(v_s_)` and finally reverses `discounted_r`. -/

/-- The backward accumulation pass: given the reversed reward list and the
running value `v`, produce the list of accumulated values in append order
(`ppo_op.py` lines 195-197). -/
def backPass (g : ℚ) : List ℚ → ℚ → List ℚ
  | [], _ => []
  | r :: rest, v => (r + g * v) :: backPass g rest (r + g * v)

/-- Discounted returns of one episode: run the backward pass over the
reversed rewards starting at `v = 0`, then restore forward time order
(`ppo_op.py` lines 193-198). -/
def discountedReturns (g : ℚ) (rewards : List ℚ) : List ℚ :=
  (backPass g rewards.reverse 0).reverse

/-! ### PPO core loss terms (`ppo_op.py` lines 101-118) -/

/-- `torch.clamp(x, lo, hi)` = `min (max x lo) hi`. -/
def clampTo {α : Type} [LinearOrder α] (x lo hi : α) : α := min (max x lo) hi

/-- The per-transition actor objective term
`min(ratio * advantage, clamp(ratio, 1-eps, 1+eps) * advantage)`
(`ppo_op.py` lines 115-118). -/
def lossTerm {α : Type} [LinearOrderedField α] (eps r a : α) : α :=
  min (r * a) (clampTo r (1 - eps) (1 + eps) * a)

/-- A transition consumed by `learn`: state, taken action, discounted
return `d_r`, and the behaviour policy's probability of the action. -/
structure Transition (σ α : Type) where
  state : σ
  action : ℕ
  d_r : α
  old_prob : α

/-- Probability ratio `action_prob / old_prob` (`ppo_op.py` lines 113-114);
`actorP` abstracts `self.actor_net(state).gather(1, action)`. -/
def ratioOf {σ α : Type} [LinearOrderedField α] (actorP : σ → ℕ → α)
    (t : Transition σ α) : α :=
  actorP t.state t.action / t.old_prob

/-- Advantage `d_reward - V` (detached; `ppo_op.py` lines 107-110);
`critic` abstracts `self.critic_net`. -/
def advantageOf {σ α : Type} [LinearOrderedField α] (critic : σ → α)
    (t : Transition σ α) : α :=
  t.d_r - critic t.state

/-- `action_loss = -torch.min(surrogate, clip_loss).mean()` over the batch
(`ppo_op.py` line 118). -/
def actionLoss {σ α : Type} [LinearOrderedField α] (eps : α) (critic : σ → α)
    (actorP : σ → ℕ → α) (batch : List (Transition σ α)) : α :=
  -(((batch.map fun t => lossTerm eps (ratioOf actorP t) (advantageOf critic t)).sum)
      / batch.length)

/-! ### Critic loss (`ppo_op.py` line 127)

`value_loss = sum((d_reward - V).pow(2) / d_reward.size(0) * weights)` where
`weights` is a per-transition column tensor when the `w` argument of `learn`
is supplied and the scalar `1` when it is `None` (`ppo_op.py` lines 102-105). -/

/-- The effective weight of transition `i`: entry `i` of the supplied weight
vector, or `1` when `w` is `None`. -/
def weightAt (w : Option (List ℚ)) (i : ℕ) : ℚ :=
  match w with
  | none => 1
  | some ws => ws.getD i 1

/-- `value_loss` of `learn` (`ppo_op.py` line 127): elementwise
`(d_reward - V)^2 / N * weights`, summed over the batch. -/
def value_loss (dr V : List ℚ) (w : Option (List ℚ)) : ℚ :=
  ∑ i in Finset.range dr.length,
    (dr.getD i 0 - V.getD i 0) ^ 2 / dr.length * weightAt w i

/-! ### Priorities returned by `learn` (`ppo_op.py` lines 132-137)

The code floors each advantage entry to `1e-5` only when it is strictly
negative, then returns `abs(advantage) ** 0.6`. -/

/-- The advantage flooring loop (`ppo_op.py` lines 133-135): a strictly
negative entry is replaced by `1e-5`; zero and positive entries are kept. -/
noncomputable def floorAdv (a : ℝ) : ℝ := if a < 0 then 1 / 100000 else a

/-- One returned priority: `abs(advantage) ** alpha` with `alpha = 0.6`
after flooring (`ppo_op.py` line 136). -/
noncomputable def priorityOf (a : ℝ) : ℝ := |floorAdv a| ^ ((3 : ℝ) / 5)

/-- The flat priority array returned by `learn` (`ppo_op.py` line 137). -/
noncomputable def prioritiesOf (advs : List ℝ) : List ℝ := advs.map priorityOf

/-! ### Priority array and priority-weighted sampling (`ppo_op.py` lines 69-70, 149-163) -/

/-- Numpy fancy assignment `priorities[index] = vals` (`ppo_op.py` line 150):
set each listed position in turn. -/
def writeBack (pr : List ℚ) (idxs : List ℕ) (vals : List ℚ) : List ℚ :=
  (idxs.zip vals).foldl (fun p iv => p.set iv.1 iv.2) pr

/-- `prob1 = self.priorities / np.sum(self.priorities)` (`ppo_op.py` line
152): every entry of the whole fixed-capacity array is divided by the sum of
the whole array. -/
def prob1_of (priorities : List ℚ) : List ℚ :=
  priorities.map fun p => p / priorities.sum

/-- Modelled from the spec: the sampling distribution the spec describes,
normalising the priorities over only the current buffer's valid index range
`[0, len)` (spec §4.3 `sample`); kept separate from `prob1_of`, which embeds
what the code actually computes, so the two can be compared. -/
def prob_spec_normalized (priorities : List ℚ) (len : ℕ) : List ℚ :=
  (priorities.take len).map fun p => p / (priorities.take len).sum

/-- `np.random.choice(n, size, p)` (`ppo_op.py` line 155), modelled by its
support: the draw validates `len(p) == n` (raising `ValueError` otherwise,
modelled as `none`) and can return only indices `i < n` with `p[i] > 0`. -/
def npChoiceSupport (n : ℕ) (p : List ℚ) : Option (List ℕ) :=
  if p.length = n then
    some ((List.range n).filter fun i => decide (0 < p.getD i 0))
  else none

/-- `replay_size = init_size + (batch_size - init_size) * (train_steps /
convergence_episode) ** 2` (`ppo_op.py` lines 153-154), with Python float
division modelled exactly over `ℚ`. -/
def replay_size (B t : ℕ) : ℚ :=
  (init_size : ℚ) + ((B : ℚ) - (init_size : ℚ))
    * ((t : ℚ) / (convergence_episode : ℚ)) ^ 2

/-- Python `int(x)`: truncation toward zero. -/
def pyInt (q : ℚ) : ℤ := if 0 ≤ q then ⌊q⌋ else ⌈q⌉

/-- The number of indices drawn by the priority-weighted step:
`min(self.batch_size, int(replay_size))` (`ppo_op.py` line 155). -/
def drawCount (B t : ℕ) : ℤ := min (B : ℤ) (pyInt (replay_size B t))

/-! ### One update pass as a state transformer (`ppo_op.py` lines 146-163)

The networks and the gradient steps `learn` applies to them are abstracted
as a state `nets : θ` together with an arbitrary update function
`learnStep` and an arbitrary returned-priorities function `learnProb`; the
priority array and the `train_steps` counter are explicit. -/

/-- The mutable state touched by `update`: network parameters (abstract),
the fixed-capacity priority array, and the `train_steps` counter. -/
structure Global (θ : Type) where
  nets : θ
  priorities : List ℚ
  trainSteps : ℕ

/-- One call to `learn` (`ppo_op.py` lines 101-137): the networks advance
by the abstract gradient step, the priority array is not touched, and the
computed priorities are returned to the caller. -/
def learnM {θ : Type} (learnStep : θ → List ℕ → θ) (learnProb : θ → List ℕ → List ℚ)
    (g : Global θ) (b : List ℕ) : Global θ × List ℚ :=
  ({ g with nets := learnStep g.nets b }, learnProb g.nets b)

/-- One full-sweep mini-batch step (`ppo_op.py` line 150): call `learn` and
write the returned priorities back at the mini-batch indices. -/
def sweepStep {θ : Type} (learnStep : θ → List ℕ → θ) (learnProb : θ → List ℕ → List ℚ)
    (g : Global θ) (b : List ℕ) : Global θ :=
  let gp := learnM learnStep learnProb g b
  { gp.1 with priorities := writeBack gp.1.priorities b gp.2 }

/-- One pass of `update` (`ppo_op.py` lines 146-163): increment
`train_steps`, run the full sweep over the mini-batches, then call `learn`
once more on the replay indices, discarding its returned priorities. -/
def passM {θ : Type} (learnStep : θ → List ℕ → θ) (learnProb : θ → List ℕ → List ℚ)
    (g : Global θ) (batches : List (List ℕ)) (replayIdxs : List ℕ) : Global θ :=
  let g0 : Global θ := { g with trainSteps := g.trainSteps + 1 }
  let g1 := batches.foldl (sweepStep learnStep learnProb) g0
  (learnM learnStep learnProb g1 replayIdxs).1

/-! ### Training orchestrator (`ppo_op.py` lines 165-224)

Episodes are abstracted by the function `ms : ℕ → ℕ` giving the terminal
makespan (`self.env.current_time`) of each episode in collection order; the
wall-clock check at line 175 is modelled as never exceeded (the claims under
verification are about the epoch budget and the convergence stop). -/

/-- Append to the convergence window, evicting the oldest entry once the
length exceeds 30 (`ppo_op.py` lines 212-214). -/
def pushWindow (w : List ℕ) (x : ℕ) : List ℕ :=
  if 31 ≤ (w ++ [x]).length then (w ++ [x]).tail else w ++ [x]

/-- The stopping test `min(converged_value) == max(converged_value) and
len(converged_value) >= 30` (`ppo_op.py` line 218). -/
def stopCond (w : List ℕ) : Bool :=
  decide (w.min? = w.max?) && decide (30 ≤ w.length)

/-- Orchestrator state: the convergence window, the running minimum
makespan `min_make_span`, and the last recorded episode index. -/
structure TrainState where
  window : List ℕ
  minSpan : ℕ
  lastIndex : ℕ

/-- The initial orchestrator state (`ppo_op.py` lines 169-173):
`min_make_span = 100000`, empty window, `index = 0`. -/
def initState : TrainState := ⟨[], 100000, 0⟩

/-- One episode of epoch `epoch` (`ppo_op.py` lines 179-215): append its
makespan to the window, update `min_make_span`, and record its index
`i_epoch * memory_size + m`. -/
def episodeStep (ms : ℕ → ℕ) (memSize epoch : ℕ) (st : TrainState) (m : ℕ) : TrainState :=
  { window := pushWindow st.window (ms (epoch * memSize + m)),
    minSpan := min st.minSpan (ms (epoch * memSize + m)),
    lastIndex := epoch * memSize + m }

/-- Collect the `memory_size` episodes of epoch `epoch` (`ppo_op.py` lines
178-215). -/
def collectEpoch (ms : ℕ → ℕ) (memSize epoch : ℕ) (s : TrainState) : TrainState :=
  (List.range memSize).foldl (episodeStep ms memSize epoch) s

/-- The epoch loop (`ppo_op.py` lines 174-219): run up to `fuel` more
epochs starting at `epoch`, breaking as soon as the stopping test holds at
an epoch boundary; returns the number of epochs run and the final state. -/
def trainLoop (ms : ℕ → ℕ) (memSize : ℕ) : ℕ → ℕ → TrainState → ℕ × TrainState
  | 0, epoch, s => (epoch, s)
  | fuel + 1, epoch, s =>
    if stopCond (collectEpoch ms memSize epoch s).window then
      (epoch + 1, collectEpoch ms memSize epoch s)
    else trainLoop ms memSize fuel (epoch + 1) (collectEpoch ms memSize epoch s)

/-- A whole training run: `for i_epoch in range(4000)` from the initial
state (`ppo_op.py` line 174). -/
def trainRun (ms : ℕ → ℕ) (memSize : ℕ) : ℕ × TrainState :=
  trainLoop ms memSize 4000 0 initState

/-- Python `min` of a (nonempty) list. -/
def pyMin (l : List ℕ) : ℕ := l.min?.getD 0

/-- The summary emitted on termination (`ppo_op.py` line 224):
`(min(converged_value), converged, time.time() - t0)`, the elapsed wall
time being passed through abstractly. -/
def trainSummary (ms : ℕ → ℕ) (memSize : ℕ) (elapsed : ℚ) : ℕ × ℕ × ℚ :=
  (pyMin (trainRun ms memSize).2.window, (trainRun ms memSize).2.lastIndex, elapsed)

/-- Run `k` consecutive epochs (no stopping test), starting at `epoch`. -/
def iterateFrom (ms : ℕ → ℕ) (memSize : ℕ) : ℕ → TrainState → ℕ → TrainState
  | _, s, 0 => s
  | epoch, s, k + 1 => iterateFrom ms memSize (epoch + 1) (collectEpoch ms memSize epoch s) k

/-- The orchestrator state after the first `e` epochs. -/
def stateAfter (ms : ℕ → ℕ) (memSize e : ℕ) : TrainState :=
  iterateFrom ms memSize 0 initState e

/-- The last ≤30 entries of a history list: the intended content of the
convergence window. -/
def windowSpec (h : List ℕ) : List ℕ := h.drop (h.length - 30)

/-- The makespans of every episode recorded during the first `e` epochs, in
collection order. -/
def makespansUpTo (ms : ℕ → ℕ) (memSize e : ℕ) : List ℕ :=
  (List.range (e * memSize)).map ms

/-- A synthetic makespan sequence whose first episode is strictly better
than all later ones; used to separate the whole-run minimum from the
window minimum. -/
def msShift (n : ℕ) : ℕ := if n = 0 then 1 else 5

/-! ## Supporting lemmas -/

theorem backPass_length (g : ℚ) (l : List ℚ) (v : ℚ) :
    (backPass g l v).length = l.length := by
  induction l generalizing v with
  | nil => rfl
  | cons r rest ih => simp [backPass, ih]

theorem discountedReturns_length (g : ℚ) (r : List ℚ) :
    (discountedReturns g r).length = r.length := by
  simp [discountedReturns, backPass_length]

theorem backPass_getD (g : ℚ) (l : List ℚ) (v : ℚ) (i : ℕ) (hi : i < l.length) :
    (backPass g l v).getD i 0
      = (∑ j in Finset.range (i + 1), g ^ (i - j) * l.getD j 0) + g ^ (i + 1) * v := by
  induction l generalizing v i with
  | nil => simp at hi
  | cons r rest ih =>
    cases i with
    | zero => simp [backPass]
    | succ i =>
      have hi' : i < rest.length := by simpa using hi
      have hstep := ih (r + g * v) i hi'
      simp only [backPass, List.getD_cons_succ] at hstep ⊢
      rw [hstep]
      conv_rhs => rw [Finset.sum_range_succ']
      simp only [List.getD_cons_succ, List.getD_cons_zero]
      have hsum : ∀ j ∈ Finset.range (i + 1),
          g ^ (i + 1 - (j + 1)) * rest.getD j 0 = g ^ (i - j) * rest.getD j 0 := by
        intro j _
        congr 2
        omega
      rw [Finset.sum_congr rfl hsum, Nat.sub_zero]
      ring

theorem getD_reverse_of_lt {l : List ℚ} {i j : ℕ} (h : i + j + 1 = l.length) :
    l.reverse.getD i 0 = l.getD j 0 := by
  rw [List.getD_eq_getElem?_getD, List.getD_eq_getElem?_getD,
    List.getElem?_reverse' i j h]

theorem discountedReturns_getD (g : ℚ) (r : List ℚ) (i : ℕ) (hi : i < r.length) :
    (discountedReturns g r).getD i 0
      = ∑ k in Finset.range (r.length - i), g ^ k * r.getD (i + k) 0 := by
  unfold discountedReturns
  rw [getD_reverse_of_lt (j := r.length - 1 - i)
    (by rw [backPass_length]; simp; omega)]
  rw [backPass_getD g r.reverse 0 (r.length - 1 - i) (by simp; omega)]
  rw [mul_zero, add_zero]
  have hn : r.length - 1 - i + 1 = r.length - i := by omega
  rw [hn]
  rw [← Finset.sum_range_reflect (fun k => g ^ k * r.getD (i + k) 0) (r.length - i)]
  apply Finset.sum_congr rfl
  intro j hj
  simp only [Finset.mem_range] at hj
  rw [getD_reverse_of_lt (j := i + (r.length - i - 1 - j)) (by omega)]
  congr 1
  congr 1
  omega

/-! ## Claim theorems -/

/-- C2: the rollout collector computes discounted returns by the single
backward pass `v ← r + γ·v` started at `v = 0`; in forward order the result
satisfies `G_i = Σ_k γ^k · r_(i+k)`, and for rewards `[1, 2, 3]` with
`γ = 0.9` it yields exactly `[5.23, 4.7, 3.0]`. -/
theorem C2_discounted_returns :
    (∀ (g : ℚ) (rewards : List ℚ) (i : ℕ), i < rewards.length →
      (discountedReturns g rewards).getD i 0
        = ∑ k in Finset.range (rewards.length - i), g ^ k * rewards.getD (i + k) 0)
    ∧ discountedReturns (9 / 10) [1, 2, 3] = [523 / 100, 47 / 10, 3] := by
  constructor
  · exact discountedReturns_getD
  · norm_num [discountedReturns, backPass]

/-- C2 witness: the closed-form identity instantiated at rewards `[1, 2, 3]`,
`γ = 0.9`, index 0. -/
theorem C2_discounted_returns_witness :
    (discountedReturns (9 / 10) [1, 2, 3]).getD 0 0
      = ∑ k in Finset.range 3, (9 / 10 : ℚ) ^ k * ([1, 2, 3] : List ℚ).getD (0 + k) 0 :=
  C2_discounted_returns.1 (9 / 10) [1, 2, 3] 0 (by norm_num)

/-- C1: the actor loss is the negated batch mean of
`min(ratio · advantage, clamp(ratio, 0.8, 1.2) · advantage)` with
`ratio = new_prob / old_prob` and `advantage = returns - V`; the
per-transition term is continuous in the ratio and coincides with the
unclipped surrogate whenever the ratio lies in `[0.8, 1.2]`. -/
theorem C1_actor_loss :
    (∀ (σ : Type) (critic : σ → ℚ) (actorP : σ → ℕ → ℚ) (batch : List (Transition σ ℚ)),
      actionLoss epsilonConst critic actorP batch
        = -(((batch.map fun t =>
              min ((actorP t.state t.action / t.old_prob) * (t.d_r - critic t.state))
                (clampTo (actorP t.state t.action / t.old_prob)
                  (1 - epsilonConst) (1 + epsilonConst) * (t.d_r - critic t.state))).sum)
            / batch.length))
    ∧ (∀ a : ℝ, Continuous fun r : ℝ => lossTerm (1 / 5) r a)
    ∧ (∀ r a : ℝ, 4 / 5 ≤ r → r ≤ 6 / 5 → lossTerm (1 / 5) r a = r * a) := by
  refine ⟨fun σ critic actorP batch => rfl, fun a => ?_, fun r a h1 h2 => ?_⟩
  · unfold lossTerm clampTo
    exact (continuous_id'.mul continuous_const).min
      (((continuous_id'.max continuous_const).min continuous_const).mul continuous_const)
  · unfold lossTerm clampTo
    rw [max_eq_left (show (1 : ℝ) - 1 / 5 ≤ r by linarith),
      min_eq_left (show r ≤ (1 : ℝ) + 1 / 5 by linarith), min_self]

/-- C1 witness: the unclipped-surrogate identity at the concrete ratio 1
and advantage 2. -/
theorem C1_actor_loss_witness : lossTerm ((1 : ℝ) / 5) 1 2 = 1 * 2 :=
  C1_actor_loss.2.2 1 2 (by norm_num) (by norm_num)

/-- C8: the critic loss equals `mean(weights · (returns - V)^2)` over the
batch, with `weights` the supplied per-transition vector, and the scalar 1
when the weight argument is `None`. -/
theorem C8_critic_loss :
    ∀ (dr V ws : List ℚ),
      value_loss dr V (some ws)
        = (∑ i in Finset.range dr.length,
            ws.getD i 1 * (dr.getD i 0 - V.getD i 0) ^ 2) / dr.length
      ∧ value_loss dr V none
        = (∑ i in Finset.range dr.length, (dr.getD i 0 - V.getD i 0) ^ 2) / dr.length := by
  intro dr V ws
  constructor
  · rw [Finset.sum_div]
    apply Finset.sum_congr rfl
    intro i _
    simp only [value_loss, weightAt]
    ring
  · rw [Finset.sum_div]
    apply Finset.sum_congr rfl
    intro i _
    simp only [value_loss, weightAt]
    ring

/-- C3 counterexample: an advantage of exactly zero is not floored (only
strictly negative entries are), and `|0| ** 0.6 = 0`, so the returned
priority is zero, not strictly positive. -/
theorem C3_counterexample : priorityOf 0 = 0 ∧ ¬ (0 : ℝ) < priorityOf 0 := by
  have h : priorityOf 0 = 0 := by
    unfold priorityOf floorAdv
    rw [if_neg (lt_irrefl (0 : ℝ)), abs_zero]
    exact Real.zero_rpow (by norm_num)
  exact ⟨h, by rw [h]; exact lt_irrefl 0⟩

/-- C3 (amended): each returned priority equals `|advantage| ** 0.6` with
the advantage floored to `1e-5` when strictly negative; the priority is
strictly positive whenever the advantage is nonzero (an advantage of
exactly zero yields priority zero). -/
theorem C3_priority_positive :
    (∀ a : ℝ, priorityOf a = |if a < 0 then 1 / 100000 else a| ^ ((3 : ℝ) / 5))
    ∧ (∀ a : ℝ, a ≠ 0 → 0 < priorityOf a)
    ∧ (∀ advs : List ℝ, (∀ b ∈ advs, b ≠ 0) → ∀ p ∈ prioritiesOf advs, 0 < p) := by
  have hpos : ∀ a : ℝ, a ≠ 0 → 0 < priorityOf a := by
    intro a ha
    have hfa : floorAdv a ≠ 0 := by
      unfold floorAdv
      split
      · norm_num
      · exact ha
    exact Real.rpow_pos_of_pos (abs_pos.mpr hfa) _
  refine ⟨fun a => rfl, hpos, fun advs h p hp => ?_⟩
  simp only [prioritiesOf, List.mem_map] at hp
  obtain ⟨b, hb, rfl⟩ := hp
  exact hpos b (h b hb)

/-- C3 witness: a strictly negative advantage yields a strictly positive
priority. -/
theorem C3_priority_positive_witness : (-1 : ℝ) ≠ 0 ∧ 0 < priorityOf (-1) :=
  ⟨by norm_num, C3_priority_positive.2.1 (-1) (by norm_num)⟩

theorem prob1_of_length (priorities : List ℚ) :
    (prob1_of priorities).length = priorities.length := by
  simp [prob1_of]

/-- C4 counterexample: with a capacity-2 priority array `[1, 1]` and a
current buffer of length 1, the code's probability vector divides by the
sum over the whole array (giving `[1/2, 1/2]`, not the spec's `[1]`), and
the draw fails outright instead of drawing from `[0, 1)`. -/
theorem C4_counterexample :
    prob1_of [1, 1] ≠ prob_spec_normalized [1, 1] 1
    ∧ prob1_of [1, 1] = [1 / 2, 1 / 2]
    ∧ prob_spec_normalized [1, 1] 1 = [1]
    ∧ npChoiceSupport 1 (prob1_of [1, 1]) = none := by
  refine ⟨?_, ?_, ?_, ?_⟩
  · norm_num [prob1_of, prob_spec_normalized]
  · norm_num [prob1_of]
  · norm_num [prob_spec_normalized]
  · rw [npChoiceSupport, if_neg (by rw [prob1_of_length]; norm_num)]

/-- C4 (amended): the sampling probability vector is obtained by
normalizing the priorities over the entire fixed-capacity array, so
entries at or beyond the current buffer length do contribute to the
normalizing sum; the draw validates its length precondition, failing
whenever the buffer length differs from the capacity, and whenever it
does produce indices they all lie in `[0, current length)`. -/
theorem C4_sampling_normalization :
    ∀ (priorities : List ℚ) (bufferLen : ℕ),
      prob1_of priorities = priorities.map (fun p => p / priorities.sum)
      ∧ (bufferLen ≠ priorities.length →
          npChoiceSupport bufferLen (prob1_of priorities) = none)
      ∧ (∀ idxs : List ℕ, npChoiceSupport bufferLen (prob1_of priorities) = some idxs →
          bufferLen = priorities.length ∧ ∀ i ∈ idxs, i < bufferLen) := by
  intro priorities bufferLen
  refine ⟨rfl, ?_, ?_⟩
  · intro h
    rw [npChoiceSupport, prob1_of_length, if_neg (fun hc => h hc.symm)]
  · intro idxs hsome
    rw [npChoiceSupport, prob1_of_length] at hsome
    split at hsome
    · next hc =>
      obtain rfl : _ = idxs := Option.some.inj hsome
      refine ⟨hc.symm, fun i hi => ?_⟩
      exact List.mem_range.mp (List.mem_filter.mp hi).1
    · exact absurd hsome (by simp)

/-- C4 witness: a draw whose probability vector's length (2) differs from
the requested buffer length (5) fails. -/
theorem C4_sampling_normalization_witness :
    npChoiceSupport 5 (prob1_of [2, 3]) = none :=
  (C4_sampling_normalization [2, 3] 5).2.1 (by norm_num)

theorem writeBack_length (pr : List ℚ) (idxs : List ℕ) (vals : List ℚ) :
    (writeBack pr idxs vals).length = pr.length := by
  unfold writeBack
  generalize idxs.zip vals = l
  induction l generalizing pr with
  | nil => rfl
  | cons iv l ih => simp [List.foldl_cons, ih]

/-- C9: the probability vector passed to `np.random.choice` always has the
length of the fixed-capacity priority array (write-backs preserve that
length), so the draw's `len(p) == len(ba)` precondition holds exactly when
the epoch buffer length equals the capacity; for any shorter (or longer)
buffer the draw fails rather than sampling. -/
theorem C9_draw_length_precondition :
    ∀ (priorities : List ℚ) (bufferLen : ℕ),
      (prob1_of priorities).length = priorities.length
      ∧ (∀ (idxs : List ℕ) (vals : List ℚ),
          (writeBack priorities idxs vals).length = priorities.length)
      ∧ (bufferLen ≠ priorities.length →
          npChoiceSupport bufferLen (prob1_of priorities) = none)
      ∧ (bufferLen = priorities.length →
          ∃ idxs : List ℕ, npChoiceSupport bufferLen (prob1_of priorities) = some idxs) := by
  intro priorities bufferLen
  refine ⟨prob1_of_length priorities, writeBack_length priorities, ?_, ?_⟩
  · intro h
    rw [npChoiceSupport, prob1_of_length, if_neg (fun hc => h hc.symm)]
  · intro h
    rw [npChoiceSupport, prob1_of_length, if_pos h.symm]
    exact ⟨_, rfl⟩

/-- C9 witness: when the buffer length equals the array length the draw is
well-defined, and when it is smaller the draw fails. -/
theorem C9_draw_length_precondition_witness :
    (∃ idxs : List ℕ, npChoiceSupport 2 (prob1_of [2, 3]) = some idxs)
    ∧ npChoiceSupport 1 (prob1_of [2, 3]) = none :=
  ⟨(C9_draw_length_precondition [2, 3] 2).2.2.2 (by norm_num),
   (C9_draw_length_precondition [2, 3] 1).2.2.1 (by norm_num)⟩

theorem foldl_sweepStep_trainSteps {θ : Type} (ls : θ → List ℕ → θ)
    (lp : θ → List ℕ → List ℚ) (batches : List (List ℕ)) (g : Global θ) :
    (batches.foldl (sweepStep ls lp) g).trainSteps = g.trainSteps := by
  induction batches generalizing g with
  | nil => rfl
  | cons b bs ih => rw [List.foldl_cons, ih]; rfl

theorem replay_size_eq (B t : ℕ) :
    replay_size B t = 1 + ((B : ℚ) - 1) * ((t : ℚ) / 2000) ^ 2 := by
  unfold replay_size init_size convergence_episode
  push_cast
  ring

theorem replay_size_nonneg (B t : ℕ) (hB : 1 ≤ B) : 0 ≤ replay_size B t := by
  rw [replay_size_eq]
  have hB1 : (1 : ℚ) ≤ (B : ℚ) := by exact_mod_cast hB
  have := mul_nonneg (by linarith : (0 : ℚ) ≤ (B : ℚ) - 1) (sq_nonneg ((t : ℚ) / 2000))
  linarith

theorem replay_size_mono (B : ℕ) (hB : 1 ≤ B) {t t2 : ℕ} (h : t ≤ t2) :
    replay_size B t ≤ replay_size B t2 := by
  rw [replay_size_eq, replay_size_eq]
  have hB1 : (1 : ℚ) ≤ (B : ℚ) := by exact_mod_cast hB
  have h0 : (0 : ℚ) ≤ (t : ℚ) / 2000 := by positivity
  have hle : (t : ℚ) / 2000 ≤ (t2 : ℚ) / 2000 := by
    gcongr
  have hsq : ((t : ℚ) / 2000) ^ 2 ≤ ((t2 : ℚ) / 2000) ^ 2 := by
    exact pow_le_pow_left₀ h0 hle 2
  nlinarith

/-- C5: the replay batch size drawn in the priority-weighted step equals
`min(batch_size, int(init_size + (batch_size - init_size) *
(train_steps / 2000)^2))` with `init_size = 1`; it is non-decreasing in
`train_steps`, equals 1 at `train_steps = 0`, is at least `batch_size - 1`
once `train_steps ≥ 2000`, and `train_steps` increases by exactly one per
update pass. -/
theorem C5_replay_schedule :
    ∀ (B t t2 : ℕ), 1 ≤ B →
      drawCount B t = min (B : ℤ) ⌊1 + ((B : ℚ) - 1) * ((t : ℚ) / 2000) ^ 2⌋
      ∧ (t ≤ t2 → drawCount B t ≤ drawCount B t2)
      ∧ drawCount B 0 = 1
      ∧ (2000 ≤ t → (B : ℤ) - 1 ≤ drawCount B t)
      ∧ (∀ (θ : Type) (ls : θ → List ℕ → θ) (lp : θ → List ℕ → List ℚ)
          (g : Global θ) (batches : List (List ℕ)) (idxs : List ℕ),
          (passM ls lp g batches idxs).trainSteps = g.trainSteps + 1) := by
  intro B t t2 hB
  have hB1 : (1 : ℚ) ≤ (B : ℚ) := by exact_mod_cast hB
  have hfloor : ∀ u : ℕ, pyInt (replay_size B u) = ⌊replay_size B u⌋ :=
    fun u => if_pos (replay_size_nonneg B u hB)
  refine ⟨?_, ?_, ?_, ?_, ?_⟩
  · rw [drawCount, hfloor t, replay_size_eq]
  · intro htt
    rw [drawCount, drawCount, hfloor, hfloor]
    exact min_le_min (le_refl _) (Int.floor_le_floor (replay_size_mono B hB htt))
  · have h0 : replay_size B 0 = 1 := by rw [replay_size_eq]; norm_num
    rw [drawCount, hfloor, h0, Int.floor_one]
    exact min_eq_right (by exact_mod_cast hB)
  · intro ht
    have h1 : (1 : ℚ) ≤ (t : ℚ) / 2000 := by
      rw [le_div_iff₀ (by norm_num : (0 : ℚ) < 2000)]
      have : (2000 : ℚ) ≤ (t : ℚ) := by exact_mod_cast ht
      linarith
    have h2 : (1 : ℚ) ≤ ((t : ℚ) / 2000) ^ 2 := by nlinarith
    have hrs : (B : ℚ) ≤ replay_size B t := by
      rw [replay_size_eq]
      nlinarith
    have hple : (B : ℤ) ≤ pyInt (replay_size B t) := by
      rw [hfloor]
      exact Int.le_floor.mpr (by push_cast; linarith)
    rw [drawCount]
    exact le_min (by linarith) (by linarith)
  · intro θ ls lp g batches idxs
    show (batches.foldl (sweepStep ls lp) _).trainSteps = g.trainSteps + 1
    rw [foldl_sweepStep_trainSteps]

/-- C5 witness: the schedule instantiated at `batch_size = 32`,
`train_steps` 0 and 2000. -/
theorem C5_replay_schedule_witness :
    drawCount 32 0 = 1 ∧ (32 : ℤ) - 1 ≤ drawCount 32 2000 :=
  ⟨((C5_replay_schedule 32 0 0 (by norm_num)).2.2.1),
   ((C5_replay_schedule 32 2000 0 (by norm_num)).2.2.2.1 (by norm_num))⟩

theorem getD_set_ne (pr : List ℚ) (i j : ℕ) (v d : ℚ) (h : i ≠ j) :
    (pr.set i v).getD j d = pr.getD j d := by
  rw [List.getD_eq_getElem?_getD, List.getD_eq_getElem?_getD, List.getElem?_set_ne h]

theorem writeBack_getD_not_mem (pr : List ℚ) (idxs : List ℕ) (vals : List ℚ)
    (j : ℕ) (d : ℚ) (hj : j ∉ idxs) :
    (writeBack pr idxs vals).getD j d = pr.getD j d := by
  induction idxs generalizing vals pr with
  | nil => rfl
  | cons i is ih =>
    cases vals with
    | nil => simp [writeBack]
    | cons v vs =>
      have hji : i ≠ j := fun hc => hj (hc ▸ List.mem_cons_self i is)
      have hjs : j ∉ is := fun hc => hj (List.mem_cons_of_mem i hc)
      show (writeBack (pr.set i v) is vs).getD j d = pr.getD j d
      rw [ih (pr.set i v) vs hjs, getD_set_ne pr i j v d hji]

theorem foldl_sweepStep_priorities_not_mem {θ : Type} (ls : θ → List ℕ → θ)
    (lp : θ → List ℕ → List ℚ) (batches : List (List ℕ)) (g : Global θ)
    (j : ℕ) (d : ℚ) (hj : ∀ b ∈ batches, j ∉ b) :
    (batches.foldl (sweepStep ls lp) g).priorities.getD j d = g.priorities.getD j d := by
  induction batches generalizing g with
  | nil => rfl
  | cons b bs ih =>
    rw [List.foldl_cons, ih _ (fun b2 hb2 => hj b2 (List.mem_cons_of_mem b hb2))]
    show (writeBack g.priorities b (lp g.nets b)).getD j d = g.priorities.getD j d
    exact writeBack_getD_not_mem _ _ _ _ _ (hj b (List.mem_cons_self b bs))

/-- C10: within one update pass the priority array is mutated only by the
full-sweep write-backs at the mini-batch indices: the final
priority-weighted `learn` call leaves every entry unchanged (its returned
priorities are discarded), and an index belonging to no mini-batch keeps
its entry across the whole pass. -/
theorem C10_priority_frame :
    ∀ (θ : Type) (ls : θ → List ℕ → θ) (lp : θ → List ℕ → List ℚ)
      (g : Global θ) (batches : List (List ℕ)) (replayIdxs : List ℕ),
      (passM ls lp g batches replayIdxs).priorities
        = (batches.foldl (sweepStep ls lp) { g with trainSteps := g.trainSteps + 1 }).priorities
      ∧ (∀ (j : ℕ) (d : ℚ), (∀ b ∈ batches, j ∉ b) →
          (passM ls lp g batches replayIdxs).priorities.getD j d = g.priorities.getD j d) := by
  intro θ ls lp g batches replayIdxs
  constructor
  · rfl
  · intro j d hj
    show (batches.foldl (sweepStep ls lp) _).priorities.getD j d = g.priorities.getD j d
    exact foldl_sweepStep_priorities_not_mem ls lp batches _ j d hj

/-- C10 witness: a pass over the single mini-batch `[0]` leaves the entry
at the unused index 1 unchanged. -/
theorem C10_priority_frame_witness :
    (passM (fun u _ => u) (fun _ _ => ([] : List ℚ)) ⟨(), [5, 7], 0⟩ [[0]] [0]).priorities.getD 1 0
      = ([5, 7] : List ℚ).getD 1 0 :=
  (C10_priority_frame Unit (fun u _ => u) (fun _ _ => []) ⟨(), [5, 7], 0⟩ [[0]] [0]).2
    1 0 (by decide)

theorem pushWindow_length_le (w : List ℕ) (x : ℕ) (h : w.length ≤ 30) :
    (pushWindow w x).length ≤ 30 := by
  unfold pushWindow
  split
  · next hc =>
    simp only [List.length_tail, List.length_append, List.length_cons, List.length_nil]
    omega
  · next hc =>
    simp only [List.length_append, List.length_cons, List.length_nil] at hc ⊢
    omega

theorem iterateFrom_snoc (ms : ℕ → ℕ) (m : ℕ) :
    ∀ (k epoch : ℕ) (s : TrainState),
      iterateFrom ms m epoch s (k + 1)
        = collectEpoch ms m (epoch + k) (iterateFrom ms m epoch s k) := by
  intro k
  induction k with
  | zero => intro epoch s; rfl
  | succ k ih =>
    intro epoch s
    show iterateFrom ms m (epoch + 1) (collectEpoch ms m epoch s) (k + 1) = _
    rw [ih]
    have harg : epoch + 1 + k = epoch + (k + 1) := by omega
    rw [harg]
    rfl

theorem trainLoop_stops (ms : ℕ → ℕ) (m : ℕ) :
    ∀ (fuel epoch j : ℕ) (s : TrainState), j < fuel →
      stopCond (iterateFrom ms m epoch s (j + 1)).window = true →
      (trainLoop ms m fuel epoch s).1 ≤ epoch + j + 1 := by
  intro fuel
  induction fuel with
  | zero => exact fun epoch j s hj _ => absurd hj (Nat.not_lt_zero j)
  | succ fuel ih =>
    intro epoch j s hj hstop
    simp only [trainLoop]
    by_cases hc : stopCond (collectEpoch ms m epoch s).window = true
    · rw [if_pos hc]
      omega
    · rw [if_neg hc]
      cases j with
      | zero =>
        have h1 : iterateFrom ms m epoch s 1 = collectEpoch ms m epoch s := rfl
        rw [h1] at hstop
        exact absurd hstop hc
      | succ j =>
        have hrec := ih (epoch + 1) j (collectEpoch ms m epoch s) (by omega) hstop
        omega

theorem trainLoop_iterate (ms : ℕ → ℕ) (m : ℕ) :
    ∀ (fuel epoch : ℕ) (s : TrainState),
      (trainLoop ms m fuel epoch s).2
          = iterateFrom ms m epoch s ((trainLoop ms m fuel epoch s).1 - epoch)
      ∧ epoch ≤ (trainLoop ms m fuel epoch s).1
      ∧ (fuel ≠ 0 → epoch < (trainLoop ms m fuel epoch s).1) := by
  intro fuel
  induction fuel with
  | zero =>
    intro epoch s
    exact ⟨by simp [trainLoop, iterateFrom], le_refl _, fun h => absurd rfl h⟩
  | succ fuel ih =>
    intro epoch s
    simp only [trainLoop]
    by_cases hc : stopCond (collectEpoch ms m epoch s).window = true
    · rw [if_pos hc]
      refine ⟨?_, by omega, fun _ => by omega⟩
      have h1 : epoch + 1 - epoch = 1 := by omega
      show collectEpoch ms m epoch s = iterateFrom ms m epoch s (epoch + 1 - epoch)
      rw [h1]
      rfl
    · rw [if_neg hc]
      obtain ⟨h1, h2, _⟩ := ih (epoch + 1) (collectEpoch ms m epoch s)
      refine ⟨?_, by omega, fun _ => by omega⟩
      rw [h1]
      have hk : (trainLoop ms m fuel (epoch + 1) (collectEpoch ms m epoch s)).1 - epoch
          = ((trainLoop ms m fuel (epoch + 1) (collectEpoch ms m epoch s)).1 - (epoch + 1)) + 1 := by
        omega
      rw [hk]
      rfl

theorem trainRun_spec (ms : ℕ → ℕ) (m : ℕ) :
    (trainRun ms m).2 = stateAfter ms m (trainRun ms m).1 ∧ 1 ≤ (trainRun ms m).1 := by
  obtain ⟨h1, _, h3⟩ := trainLoop_iterate ms m 4000 0 initState
  constructor
  · unfold trainRun stateAfter
    simpa using h1
  · have := h3 (by norm_num)
    unfold trainRun
    omega

theorem pushWindow_windowSpec (h : List ℕ) (x : ℕ) :
    pushWindow (windowSpec h) x = windowSpec (h ++ [x]) := by
  unfold pushWindow windowSpec
  by_cases hlen : h.length ≤ 29
  · have h30 : h.length - 30 = 0 := by omega
    have h31 : (h ++ [x]).length - 30 = 0 := by
      simp only [List.length_append, List.length_cons, List.length_nil]
      omega
    rw [h30, h31, List.drop_zero, List.drop_zero, if_neg]
    simp only [List.length_append, List.length_cons, List.length_nil]
    omega
  · have hdl : (h.drop (h.length - 30)).length = 30 := by
      simp only [List.length_drop]
      omega
    have hne : h.drop (h.length - 30) ≠ [] := by
      intro hc
      rw [hc] at hdl
      simp at hdl
    rw [if_pos]
    · rw [List.tail_append_of_ne_nil hne, ← List.drop_one, List.drop_drop]
      have hR : (h ++ [x]).length - 30 = h.length + 1 - 30 := by simp
      rw [hR, List.drop_append_of_le_length (by omega : h.length + 1 - 30 ≤ h.length)]
      congr 2
      omega
    · simp only [List.length_append, List.length_cons, List.length_nil, hdl]
      omega

theorem foldl_episodeStep_window (ms : ℕ → ℕ) (m e : ℕ) :
    ∀ (l : List ℕ) (s : TrainState) (hist : List ℕ),
      s.window = windowSpec hist →
      ((l.foldl (episodeStep ms m e) s).window
        = windowSpec (hist ++ l.map fun j => ms (e * m + j))) := by
  intro l
  induction l with
  | nil =>
    intro s hist hs
    simpa using hs
  | cons j l ih =>
    intro s hist hs
    rw [List.foldl_cons]
    have hstep : (episodeStep ms m e s j).window = windowSpec (hist ++ [ms (e * m + j)]) := by
      show pushWindow s.window (ms (e * m + j)) = _
      rw [hs, pushWindow_windowSpec]
    rw [ih _ _ hstep]
    simp [List.append_assoc]

theorem stateAfter_window (ms : ℕ → ℕ) (m : ℕ) :
    ∀ e : ℕ, (stateAfter ms m e).window = windowSpec (makespansUpTo ms m e) := by
  intro e
  induction e with
  | zero => simp [stateAfter, iterateFrom, makespansUpTo, windowSpec, initState]
  | succ e ih =>
    have hsnoc := iterateFrom_snoc ms m e 0 initState
    rw [Nat.zero_add] at hsnoc
    show (iterateFrom ms m 0 initState (e + 1)).window = _
    rw [hsnoc]
    show ((List.range m).foldl (episodeStep ms m e) (stateAfter ms m e)).window = _
    rw [foldl_episodeStep_window ms m e (List.range m) _ (makespansUpTo ms m e) ih]
    congr 1
    unfold makespansUpTo
    rw [show (e + 1) * m = e * m + m by ring, List.range_add, List.map_append, List.map_map]
    rfl

theorem collectEpoch_lastIndex (ms : ℕ → ℕ) (m e : ℕ) (s : TrainState) (hm : 1 ≤ m) :
    (collectEpoch ms m e s).lastIndex = e * m + (m - 1) := by
  obtain ⟨m', rfl⟩ : ∃ m', m = m' + 1 := ⟨m - 1, by omega⟩
  unfold collectEpoch
  rw [List.range_succ, List.foldl_append, List.foldl_cons, List.foldl_nil]
  show e * (m' + 1) + m' = e * (m' + 1) + (m' + 1 - 1)
  simp

theorem stateAfter_lastIndex (ms : ℕ → ℕ) (m e : ℕ) (hm : 1 ≤ m) (he : 1 ≤ e) :
    (stateAfter ms m e).lastIndex = e * m - 1 := by
  obtain ⟨e', rfl⟩ : ∃ e', e = e' + 1 := ⟨e - 1, by omega⟩
  have hsnoc := iterateFrom_snoc ms m e' 0 initState
  rw [Nat.zero_add] at hsnoc
  show (iterateFrom ms m 0 initState (e' + 1)).lastIndex = _
  rw [hsnoc, collectEpoch_lastIndex ms m e' _ hm]
  have hx : (e' + 1) * m = e' * m + m := by ring
  omega

set_option maxRecDepth 40000 in
/-- C6: the convergence window never exceeds 30 entries; the loop stops at
the first epoch boundary at which the window has ≥30 entries all equal
(`min = max`), hence no later than that boundary; and on a synthetic
constant makespan stream it halts after 4 epochs, well before the
4000-epoch budget. -/
theorem C6_convergence_stop :
    (∀ (w : List ℕ) (x : ℕ), w.length ≤ 30 → (pushWindow w x).length ≤ 30)
    ∧ (∀ (ms : ℕ → ℕ) (memSize e : ℕ), e < 4000 →
        stopCond (stateAfter ms memSize (e + 1)).window = true →
        (trainRun ms memSize).1 ≤ e + 1)
    ∧ (trainRun (fun _ => 7) 9).1 = 4 ∧ (trainRun (fun _ => 7) 9).1 < 4000 := by
  have h4 : (trainRun (fun _ => 7) 9).1 = 4 := by decide
  refine ⟨pushWindow_length_le, ?_, h4, by rw [h4]; norm_num⟩
  intro ms m e he hstop
  have := trainLoop_stops ms m 4000 0 e initState he hstop
  simpa using this

set_option maxRecDepth 40000 in
/-- C6 witness: the window bound at the empty window, and the early stop at
epoch boundary 4 on the constant stream. -/
theorem C6_convergence_stop_witness :
    (pushWindow [] 5).length ≤ 30 ∧ (trainRun (fun _ => 7) 9).1 ≤ 4 :=
  ⟨C6_convergence_stop.1 [] 5 (by decide),
   C6_convergence_stop.2.1 (fun _ => 7) 9 3 (by decide) (by decide)⟩

set_option maxRecDepth 40000 in
/-- C7 counterexample: on the stream whose first episode has makespan 1 and
all later episodes makespan 5, the run converges with the window holding
only 5s: the summary's first component is 5, while the minimum makespan
over every episode of the whole run (tracked as `min_make_span`) is 1. -/
theorem C7_counterexample :
    (trainSummary msShift 9 0).1 = 5
    ∧ (trainRun msShift 9).2.minSpan = 1
    ∧ pyMin (makespansUpTo msShift 9 (trainRun msShift 9).1) = 1
    ∧ (5 : ℕ) ≠ 1 := by
  refine ⟨by decide, by decide, by decide, by decide⟩

/-- C7 (amended): the emitted summary's first component is the minimum over
the convergence window — the last ≤30 recorded makespans — at termination
(not the whole-run minimum), its second component is the index of the last
recorded episode (`epochs_run * memory_size - 1`), and its third is the
elapsed wall time. -/
theorem C7_summary :
    ∀ (ms : ℕ → ℕ) (memSize : ℕ) (elapsed : ℚ), 1 ≤ memSize →
      (trainSummary ms memSize elapsed).1
          = pyMin (windowSpec (makespansUpTo ms memSize (trainRun ms memSize).1))
      ∧ (trainSummary ms memSize elapsed).2.1 = (trainRun ms memSize).1 * memSize - 1
      ∧ (trainSummary ms memSize elapsed).2.2 = elapsed := by
  intro ms m elapsed hm
  obtain ⟨hst, hn⟩ := trainRun_spec ms m
  refine ⟨?_, ?_, rfl⟩
  · show pyMin (trainRun ms m).2.window = _
    rw [hst, stateAfter_window]
  · show (trainRun ms m).2.lastIndex = _
    rw [hst, stateAfter_lastIndex ms m _ hm hn]

/-- C7 witness: the amended summary shape on the constant makespan
stream. -/
theorem C7_summary_witness :
    (trainSummary (fun _ => 7) 9 0).1
        = pyMin (windowSpec (makespansUpTo (fun _ => 7) 9 (trainRun (fun _ => 7) 9).1))
    ∧ (trainSummary (fun _ => 7) 9 0).2.1 = (trainRun (fun _ => 7) 9).1 * 9 - 1
    ∧ (trainSummary (fun _ => 7) 9 0).2.2 = 0 :=
  C7_summary (fun _ => 7) 9 0 (by norm_num)

end PPOOp
